import Mathlib

/-!
Verification of the tile-dl tile downloader (src/main.rs) against its
natural-language specification.

The Rust program is shallowly embedded below:
- command-line arguments become the structure `Args` (u32/usize fields
  become ℕ, bool becomes Bool);
- the per-zoom tile count `u32::pow(2, z)` becomes `nTiles`, with the
  32-bit wrap-around made explicit as a reduction mod 2^32;
- the nested enumeration loops of `main` become the list-valued
  functions `yAddrs`, `perZoom`, `enumerate`;
- the URL templating becomes `urlFor`; the f32 arithmetic of the
  bounds computation is modelled faithfully: an f32 value is the
  rational number it denotes, and every f32 operation of the source
  applies `roundF32`, IEEE-754 binary32 round-to-nearest-even on
  exact rationals;
- the destination-path construction becomes `directoryFor` / `pathFor`;
- `run_request` becomes a function of a `FetchOutcome` record that
  carries the success/failure of each fallible step;
- the run loop of `main`, with its fatal `unwrap()` on directory
  creation, becomes `mainRun` over a `World` of filesystem/network
  oracles, returning `Except` (error = process abort);
- the hand-rolled bounded thread pool becomes the transition system
  `LoopStep` / `ReachableLoop` on `LoopState`.
-/

/-- The command-line arguments of the program (struct `Args` in main.rs).
`u32`/`usize` fields are modelled as ℕ, `bool` as `Bool`. -/
structure Args where
  url : String
  output_dir : String
  start_zoom : ℕ
  end_zoom : ℕ
  tile_width : ℕ
  tile_height : ℕ
  x : ℕ
  y : ℕ
  invert_y_axis : Bool
  concurrent_threads : ℕ
deriving Repr, DecidableEq

/-- Number of tiles per axis at a zoom level: `let n = u32::pow(2, z)` in
main.rs, computed in 32-bit unsigned arithmetic, hence the reduction
mod 2^32 (wrapping semantics). -/
def nTiles (z : ℕ) : ℕ := 2 ^ z % 2 ^ 32

/-- The y-loop of `main`: `for y in args.y..n`, producing the addresses
of one (zoom, x) column. -/
def yAddrs (z x sy : ℕ) : List (ℕ × ℕ × ℕ) :=
  (List.range' sy (nTiles z - sy)).map fun y => (z, x, y)

/-- The x-loop of `main` at one zoom level: `for x in args.x..n` around
the y-loop. -/
def perZoom (z sx sy : ℕ) : List (ℕ × ℕ × ℕ) :=
  (List.range' sx (nTiles z - sx)).flatMap fun x => yAddrs z x sy

/-- The zoom-loop of `main`: `for z in args.start_zoom..args.end_zoom+1`. -/
def zoomList (z1 z2 : ℕ) : List ℕ := List.range' z1 (z2 + 1 - z1)

/-- The complete enumeration order of `main`: zoom ascending, then x from
`args.x`, then y from `args.y`.  Note that the source re-applies the
`args.x` / `args.y` offsets at every zoom level. -/
def enumerate (z1 z2 sx sy : ℕ) : List (ℕ × ℕ × ℕ) :=
  (zoomList z1 z2).flatMap fun z => perZoom z sx sy

/-- `enumerate`, reading the offsets from the parsed arguments. -/
def enumerateArgs (a : Args) : List (ℕ × ℕ × ℕ) :=
  enumerate a.start_zoom a.end_zoom a.x a.y

/-- The spec's reading of the offsets, stated for comparison with
`enumerate` (refinement check for the enumeration-offset claim):
`startX`/`startY` apply only at the very start of enumeration, so every
zoom after the first iterates x from 0, and every x after the first
iterates y from 0.  This definition follows the spec's words, not the
source. -/
def enumerateOffsetsOnce (z1 z2 sx sy : ℕ) : List (ℕ × ℕ × ℕ) :=
  (zoomList z1 z2).flatMap fun z =>
    let x0 := if z = z1 then sx else 0
    (List.range' x0 (nTiles z - x0)).flatMap fun x =>
      let y0 := if z = z1 ∧ x = sx then sy else 0
      (List.range' y0 (nTiles z - y0)).map fun y => (z, x, y)

/-- Upward binade search: the largest exponent e' ≥ e with 2^e' ≤ q,
found by bounded iteration (the fuel covers the whole finite binary32
exponent range). -/
def expUp : ℕ → ℚ → ℤ → ℤ
  | 0, _, e => e
  | f + 1, q, e => if (2:ℚ) ^ (e + 1) ≤ q then expUp f q (e + 1) else e

/-- Downward binade search: the largest exponent e' ≤ e with 2^e' ≤ q. -/
def expDown : ℕ → ℚ → ℤ → ℤ
  | 0, _, e => e
  | f + 1, q, e => if q < (2:ℚ) ^ e then expDown f q (e - 1) else e

/-- The binade exponent of a rational: the unique e with 2^e ≤ |q| < 2^(e+1)
(for q in the range covered by the searches). -/
def binadeExp (q : ℚ) : ℤ :=
  if 1 ≤ |q| then expUp 128 |q| 0 else expDown 149 |q| 0

/-- Round a rational to the nearest integer, ties to even. -/
def roundHalfEven (q : ℚ) : ℤ :=
  if q - (⌊q⌋ : ℚ) < 1/2 then ⌊q⌋
  else if 1/2 < q - (⌊q⌋ : ℚ) then ⌊q⌋ + 1
  else if ⌊q⌋ % 2 = 0 then ⌊q⌋ else ⌊q⌋ + 1

/-- IEEE-754 binary32 rounding (round to nearest, ties to even) as a map
on the exact rationals the f32 values denote: quantize to the 24-bit
significand grid 2^(e-23) of the value's binade, the grid clamped below
at the subnormal quantum 2^(-149) (e = -126).  Every f32 operation of
main.rs is modelled as the exact rational operation followed by this
rounding (IEEE negation is exact and gets no rounding step).  All values
reached in the claims' scope lie far inside the finite f32 range, so
infinities and NaN stay outside the model; in particular zoom levels
whose wrapped tile count is 0 (z ≥ 32, where the source would divide by
0.0) are in no claim about bounds. -/
def roundF32 (q : ℚ) : ℚ :=
  if q = 0 then 0
  else ((roundHalfEven (q / (2:ℚ) ^ (max (binadeExp q) (-126) - 23)) : ℤ) : ℚ)
    * (2:ℚ) ^ (max (binadeExp q) (-126) - 23)

/-- Longitude step `360.0 / n as f32` of main.rs: the u32 tile count
converted to f32, then one rounded f32 division. -/
def lonStep (z : ℕ) : ℚ := roundF32 (360 / roundF32 ((nTiles z : ℚ)))

/-- Latitude step `180.0 / n as f32` of main.rs. -/
def latStep (z : ℕ) : ℚ := roundF32 (180 / roundF32 ((nTiles z : ℚ)))

/-- West edge `(x as f32 * lon_step) - 180.0` of main.rs: the u32-to-f32
conversion, the multiplication and the subtraction each round. -/
def tileLon (z x : ℕ) : ℚ := roundF32 (roundF32 (roundF32 ((x : ℚ)) * lonStep z) - 180)

/-- North edge `-(y as f32 * lat_step) + 90.0` of main.rs: conversion,
multiplication and addition each round; the negation is exact. -/
def tileLat (z y : ℕ) : ℚ := roundF32 (-(roundF32 (roundF32 ((y : ℚ)) * latStep z)) + 90)

/-- The 4-tuple `(lat, lat - lat_step, lon, lon + lon_step)` substituted
for the bounds placeholder, the subtraction and addition rounded in f32:
(north, south, west, east). -/
def boundsTuple (z x y : ℕ) : ℚ × ℚ × ℚ × ℚ :=
  (tileLat z y, roundF32 (tileLat z y - latStep z), tileLon z x,
    roundF32 (tileLon z x + lonStep z))

/-- The string rendering of `boundsTuple`, matching the `format!` call of
main.rs (the Display digits of the f32 values are modelled by the
rendering of the rationals they denote). -/
def boundsStr (z x y : ℕ) : String :=
  "(" ++ toString (boundsTuple z x y).1 ++ "," ++ toString (boundsTuple z x y).2.1
    ++ "," ++ toString (boundsTuple z x y).2.2.1
    ++ "," ++ toString (boundsTuple z x y).2.2.2 ++ ")"

/-- The URL templating chain of main.rs: replace the x, y and z tokens,
then (when present) the bounds token, then the w and h tokens. -/
def urlFor (a : Args) (z x y : ℕ) : String :=
  let u := ((a.url.replace "{x}" (toString x)).replace "{y}" (toString y)).replace
    "{z}" (toString z)
  let u := if u.containsSubstr ("{bounds}").toSubstring
    then u.replace "{bounds}" (boundsStr z x y) else u
  (u.replace "{w}" (toString a.tile_width)).replace "{h}" (toString a.tile_height)

/-- The directory string of main.rs:
`format!` of output_dir, z and x joined by slashes. -/
def directoryFor (a : Args) (z x : ℕ) : String :=
  a.output_dir ++ "/" ++ toString z ++ "/" ++ toString x

/-- The destination path of main.rs: the directory, a slash, y and the
png suffix. -/
def pathFor (a : Args) (z x y : ℕ) : String :=
  directoryFor a z x ++ "/" ++ toString y ++ ".png"

/-- Outcome oracle for the fallible steps of `run_request`: whether the
client build, the GET and the file creation succeed, and the result of
`copy_to` (number of bytes copied, or `none` on error). -/
structure FetchOutcome where
  buildOk : Bool
  sendOk : Bool
  createOk : Bool
  copyResult : Option ℕ
deriving Repr, DecidableEq

/-- `run_request` of main.rs: nested `if let Ok(..)` on client build,
GET, file creation and body copy; returns `some true` only when all
succeed and more than zero bytes were written, `none` otherwise. -/
def run_request (o : FetchOutcome) : Option Bool :=
  if o.buildOk then
    if o.sendOk then
      if o.createOk then
        match o.copyResult with
        | some l => if l > 0 then some true else none
        | none => none
      else none
    else none
  else none

/-- The (zoom, x) pairs for which `main` ensures a directory exists, in
program order: one per x-iteration, before the y-loop runs. -/
def dirPairs (z1 z2 sx : ℕ) : List (ℕ × ℕ) :=
  (zoomList z1 z2).flatMap fun z =>
    (List.range' sx (nTiles z - sx)).map fun x => (z, x)

/-- Filesystem / network oracles for a run of `main`: whether directory
z/x already exists (`is_dir`), whether `create_dir_all` for z/x
succeeds, and whether the fetch of tile (z, x, y) succeeds. -/
structure World where
  isDir : ℕ → ℕ → Bool
  createOk : ℕ → ℕ → Bool
  fetchOk : ℕ → ℕ → ℕ → Bool

/-- One x-iteration of `main`: ensure the directory exists — failure of
`create_dir_all` hits the `unwrap()` and aborts the process (modelled as
`Except.error`) — then run the y-loop, recording each tile's fetch
outcome. -/
def processX (a : Args) (w : World) (p : ℕ × ℕ) :
    Except (ℕ × ℕ) (List ((ℕ × ℕ × ℕ) × Bool)) :=
  if !w.isDir p.1 p.2 && !w.createOk p.1 p.2 then Except.error p
  else Except.ok ((yAddrs p.1 p.2 a.y).map fun t => (t, w.fetchOk t.1 t.2.1 t.2.2))

/-- The x-iterations of `main` in order, stopping at the first directory
failure (the process has aborted); otherwise concatenating the per-tile
outcomes. -/
def runPairs (a : Args) (w : World) :
    List (ℕ × ℕ) → Except (ℕ × ℕ) (List ((ℕ × ℕ × ℕ) × Bool))
  | [] => Except.ok []
  | p :: rest =>
    match processX a w p with
    | Except.error e => Except.error e
    | Except.ok r =>
      match runPairs a w rest with
      | Except.error e => Except.error e
      | Except.ok rs => Except.ok (r ++ rs)

/-- The whole run of `main` over the enumerated (zoom, x) pairs.
`Except.error (z, x)` models the process aborting on the `unwrap()` of
`create_dir_all` for directory z/x; `Except.ok rs` models a completed
run with the per-tile fetch outcomes `rs` (fetch failures are only
printed, never propagated). -/
def mainRun (a : Args) (w : World) : Except (ℕ × ℕ) (List ((ℕ × ℕ × ℕ) × Bool)) :=
  runPairs a w (dirPairs a.start_zoom a.end_zoom a.x)

/-- State of the hand-rolled thread pool of `main`: addresses not yet
dispatched, threads spawned and still executing, and threads finished
but not yet removed from the `handles` vector.  The length of `handles`
is `running + finishedInList`. -/
structure LoopState where
  queued : ℕ
  running : ℕ
  finishedInList : ℕ
deriving Repr, DecidableEq

/-- Transitions of the dispatch loop of `main` with concurrency argument
`L`.  `spawn` models `handles.push(thread::spawn(..))`, which the code
reaches exactly when the wait loop guard `handles.len() > L` is false,
i.e. when `running + finishedInList ≤ L`; `finish` models a running
thread completing; `reap` models the wait loop removing a finished
handle from the vector. -/
inductive LoopStep (L : ℕ) : LoopState → LoopState → Prop
  | spawn (s : LoopState) (hq : s.queued ≠ 0)
      (hcap : s.running + s.finishedInList ≤ L) :
      LoopStep L s ⟨s.queued - 1, s.running + 1, s.finishedInList⟩
  | finish (s : LoopState) (hr : s.running ≠ 0) :
      LoopStep L s ⟨s.queued, s.running - 1, s.finishedInList + 1⟩
  | reap (s : LoopState) (hf : s.finishedInList ≠ 0) :
      LoopStep L s ⟨s.queued, s.running, s.finishedInList - 1⟩

/-- Reachability in the dispatch loop from an initial state. -/
inductive ReachableLoop (L : ℕ) (init : LoopState) : LoopState → Prop
  | refl : ReachableLoop L init init
  | step {s t : LoopState} : ReachableLoop L init s → LoopStep L s t →
      ReachableLoop L init t

/-- A concrete argument record used to instantiate universally
quantified theorems at a specific run. -/
def sampleArgs : Args :=
  { url := "http://maps/{z}/{x}/{y}.png", output_dir := "out",
    start_zoom := 0, end_zoom := 1, tile_width := 256, tile_height := 256,
    x := 0, y := 0, invert_y_axis := false, concurrent_threads := 1 }

/-- A world in which every directory and every fetch succeeds. -/
def happyWorld : World :=
  { isDir := fun _ _ => false, createOk := fun _ _ => true,
    fetchOk := fun _ _ _ => true }

/-- Strict lexicographic order on (zoom, x, y) address triples. -/
def lexLt (a b : ℕ × ℕ × ℕ) : Prop :=
  a.1 < b.1 ∨ (a.1 = b.1 ∧ (a.2.1 < b.2.1 ∨ (a.2.1 = b.2.1 ∧ a.2.2 < b.2.2)))

instance (a b : ℕ × ℕ × ℕ) : Decidable (lexLt a b) := by
  unfold lexLt; infer_instance

/-- Boolean equality on address triples, taken from decidable equality
so that occurrence counts line up with the nodup lemmas. -/
instance (priority := 2000) instBEqAddr : BEq (ℕ × ℕ × ℕ) := instBEqOfDecidableEq

lemma nTiles_of_le_31 {z : ℕ} (h : z ≤ 31) : nTiles z = 2 ^ z := by
  unfold nTiles
  exact Nat.mod_eq_of_lt (Nat.pow_lt_pow_right (by norm_num) (by omega))

lemma mem_zoomList {z1 z2 z : ℕ} : z ∈ zoomList z1 z2 ↔ z1 ≤ z ∧ z ≤ z2 := by
  rw [zoomList, List.mem_range'_1]
  omega

lemma mem_yAddrs {z x sy : ℕ} {t : ℕ × ℕ × ℕ} :
    t ∈ yAddrs z x sy ↔ t.1 = z ∧ t.2.1 = x ∧ sy ≤ t.2.2 ∧ t.2.2 < nTiles z := by
  unfold yAddrs
  simp only [List.mem_map, List.mem_range'_1]
  constructor
  · rintro ⟨y, hy, rfl⟩
    refine ⟨rfl, rfl, ?_, ?_⟩
    · show sy ≤ y
      omega
    · show y < nTiles z
      omega
  · rintro ⟨h1, h2, h3, h4⟩
    obtain ⟨tz, tx, ty⟩ := t
    simp only at h1 h2 h3 h4
    subst h1; subst h2
    exact ⟨ty, by omega, rfl⟩

lemma mem_perZoom {z sx sy : ℕ} {t : ℕ × ℕ × ℕ} :
    t ∈ perZoom z sx sy ↔
      t.1 = z ∧ (sx ≤ t.2.1 ∧ t.2.1 < nTiles z) ∧ (sy ≤ t.2.2 ∧ t.2.2 < nTiles z) := by
  unfold perZoom
  simp only [List.mem_flatMap, List.mem_range'_1, mem_yAddrs]
  constructor
  · rintro ⟨x, hx, h1, h2, h3⟩
    exact ⟨h1, by omega, h3⟩
  · rintro ⟨h1, ⟨h2, h3⟩, h4⟩
    exact ⟨t.2.1, by omega, h1, rfl, h4⟩

lemma mem_enumerate {z1 z2 sx sy : ℕ} {t : ℕ × ℕ × ℕ} :
    t ∈ enumerate z1 z2 sx sy ↔
      (z1 ≤ t.1 ∧ t.1 ≤ z2) ∧ (sx ≤ t.2.1 ∧ t.2.1 < nTiles t.1) ∧
        (sy ≤ t.2.2 ∧ t.2.2 < nTiles t.1) := by
  unfold enumerate
  simp only [List.mem_flatMap, mem_zoomList, mem_perZoom]
  constructor
  · rintro ⟨z, hz, h1, h2, h3⟩
    subst h1
    exact ⟨hz, h2, h3⟩
  · rintro ⟨hz, h2, h3⟩
    exact ⟨t.1, hz, rfl, h2, h3⟩

lemma length_yAddrs (z x sy : ℕ) : (yAddrs z x sy).length = nTiles z - sy := by
  unfold yAddrs
  rw [List.length_map, List.length_range']

lemma length_perZoom (z sx sy : ℕ) :
    (perZoom z sx sy).length = (nTiles z - sx) * (nTiles z - sy) := by
  unfold perZoom
  rw [List.length_flatMap]
  have h : List.map (List.length ∘ fun x => yAddrs z x sy)
      (List.range' sx (nTiles z - sx)) =
      List.map (Function.const ℕ (nTiles z - sy)) (List.range' sx (nTiles z - sx)) := by
    apply List.map_congr_left
    intro x _
    simp [Function.comp, Function.const, length_yAddrs]
  rw [h, List.map_const, List.sum_replicate, List.length_range', smul_eq_mul]

lemma length_enumerate (z1 z2 sx sy : ℕ) :
    (enumerate z1 z2 sx sy).length =
      ((zoomList z1 z2).map fun z => (nTiles z - sx) * (nTiles z - sy)).sum := by
  unfold enumerate
  rw [List.length_flatMap]
  congr 1
  apply List.map_congr_left
  intro z _
  simp [Function.comp, length_perZoom]

lemma sum_Icc_eq_list_sum (f : ℕ → ℕ) (a b : ℕ) :
    ∑ z ∈ Finset.Icc a b, f z = ((List.range' a (b + 1 - a)).map f).sum := by
  rw [Nat.Icc_eq_range']
  rfl

lemma lexLt_irrefl (a : ℕ × ℕ × ℕ) : ¬ lexLt a a := by
  simp [lexLt]

lemma pairwise_yAddrs (z x sy : ℕ) : (yAddrs z x sy).Pairwise lexLt := by
  unfold yAddrs
  rw [List.pairwise_map]
  apply (List.pairwise_lt_range' sy (nTiles z - sy)).imp
  intro a b h
  exact Or.inr ⟨rfl, Or.inr ⟨rfl, h⟩⟩

lemma pairwise_perZoom (z sx sy : ℕ) : (perZoom z sx sy).Pairwise lexLt := by
  unfold perZoom
  rw [List.flatMap_def, List.pairwise_flatten]
  constructor
  · intro l hl
    rw [List.mem_map] at hl
    obtain ⟨x, hx, rfl⟩ := hl
    exact pairwise_yAddrs z x sy
  · rw [List.pairwise_map]
    apply (List.pairwise_lt_range' sx (nTiles z - sx)).imp
    intro x x' hxx' t ht t' ht'
    rw [mem_yAddrs] at ht ht'
    refine Or.inr ⟨?_, Or.inl ?_⟩
    · rw [ht.1, ht'.1]
    · rw [ht.2.1, ht'.2.1]
      exact hxx'

lemma pairwise_enumerate (z1 z2 sx sy : ℕ) :
    (enumerate z1 z2 sx sy).Pairwise lexLt := by
  unfold enumerate zoomList
  rw [List.flatMap_def, List.pairwise_flatten]
  constructor
  · intro l hl
    rw [List.mem_map] at hl
    obtain ⟨z, hz, rfl⟩ := hl
    exact pairwise_perZoom z sx sy
  · rw [List.pairwise_map]
    apply (List.pairwise_lt_range' z1 (z2 + 1 - z1)).imp
    intro z z' hzz' t ht t' ht'
    rw [mem_perZoom] at ht ht'
    refine Or.inl ?_
    rw [ht.1, ht'.1]
    exact hzz'

lemma nodup_enumerate (z1 z2 sx sy : ℕ) : (enumerate z1 z2 sx sy).Nodup := by
  apply (pairwise_enumerate z1 z2 sx sy).imp
  intro a b hab heq
  exact lexLt_irrefl b (heq ▸ hab)

lemma enumerate_eq_dirPairs_flatMap (z1 z2 sx sy : ℕ) :
    enumerate z1 z2 sx sy =
      (dirPairs z1 z2 sx).flatMap fun p => yAddrs p.1 p.2 sy := by
  unfold enumerate dirPairs perZoom
  rw [List.flatMap_assoc]
  congr 1
  funext z
  rw [List.flatMap_map]

lemma runPairs_ok (a : Args) (w : World) (l : List (ℕ × ℕ))
    (h : ∀ p ∈ l, w.isDir p.1 p.2 = true ∨ w.createOk p.1 p.2 = true) :
    runPairs a w l =
      Except.ok ((l.flatMap fun p => yAddrs p.1 p.2 a.y).map
        fun t => (t, w.fetchOk t.1 t.2.1 t.2.2)) := by
  induction l with
  | nil => rfl
  | cons p rest ih =>
    have hp := h p (List.mem_cons_self p rest)
    have hrest : ∀ q ∈ rest, w.isDir q.1 q.2 = true ∨ w.createOk q.1 q.2 = true :=
      fun q hq => h q (List.mem_cons_of_mem p hq)
    have hcond : (!w.isDir p.1 p.2 && !w.createOk p.1 p.2) = false := by
      rcases hp with hp | hp <;> simp [hp]
    rw [runPairs, processX, hcond]
    simp only [Bool.false_eq_true, if_false, ih hrest]
    rw [List.flatMap_cons, List.map_append]

lemma runPairs_error (a : Args) (w : World) (l : List (ℕ × ℕ))
    (h : ∃ p ∈ l, w.isDir p.1 p.2 = false ∧ w.createOk p.1 p.2 = false) :
    ∃ q, runPairs a w l = Except.error q := by
  induction l with
  | nil => simp at h
  | cons p rest ih =>
    rw [runPairs]
    by_cases hp : (!w.isDir p.1 p.2 && !w.createOk p.1 p.2) = true
    · rw [processX, if_pos hp]
      exact ⟨p, rfl⟩
    · have hcond : (!w.isDir p.1 p.2 && !w.createOk p.1 p.2) = false := by
        simpa using hp
      rw [processX, hcond]
      simp only [Bool.false_eq_true, if_false]
      obtain ⟨q, hq, hq1, hq2⟩ := h
      have hqrest : q ∈ rest := by
        rcases List.mem_cons.mp hq with rfl | hr
        · exfalso
          simp [hq1, hq2] at hcond
        · exact hr
      obtain ⟨e, he⟩ := ih ⟨q, hqrest, hq1, hq2⟩
      rw [he]
      exact ⟨e, rfl⟩


lemma expUp_spec (f : ℕ) : ∀ (q : ℚ) (e : ℤ), (2:ℚ) ^ e ≤ q → q < (2:ℚ) ^ (e + (f : ℤ)) →
    (2:ℚ) ^ (expUp f q e) ≤ q ∧ q < (2:ℚ) ^ (expUp f q e + 1) := by
  induction f with
  | zero =>
    intro q e h1 h2
    push_cast at h2
    rw [add_zero] at h2
    exact absurd (h1.trans_lt h2) (lt_irrefl _)
  | succ f ih =>
    intro q e h1 h2
    push_cast at h2
    rw [expUp]
    split
    · next hc =>
      refine ih q (e + 1) hc ?_
      rw [show e + 1 + (f : ℤ) = e + ((f : ℤ) + 1) from by ring]
      exact h2
    · next hc =>
      exact ⟨h1, lt_of_not_le hc⟩

lemma expDown_spec (f : ℕ) : ∀ (q : ℚ) (e : ℤ), q < (2:ℚ) ^ (e + 1) → (2:ℚ) ^ (e - (f : ℤ)) ≤ q →
    (2:ℚ) ^ (expDown f q e) ≤ q ∧ q < (2:ℚ) ^ (expDown f q e + 1) := by
  induction f with
  | zero =>
    intro q e h1 h2
    push_cast at h2
    rw [sub_zero] at h2
    rw [expDown]
    exact ⟨h2, h1⟩
  | succ f ih =>
    intro q e h1 h2
    push_cast at h2
    rw [expDown]
    split
    · next hc =>
      refine ih q (e - 1) ?_ ?_
      · rw [show e - 1 + 1 = e from by ring]
        exact hc
      · rw [show e - 1 - (f : ℤ) = e - ((f : ℤ) + 1) from by ring]
        exact h2
    · next hc =>
      exact ⟨le_of_not_lt hc, h1⟩

lemma binadeExp_spec {q : ℚ} (hlo : (2:ℚ) ^ (-(149:ℤ)) ≤ |q|) (hhi : |q| < (2:ℚ) ^ (128:ℤ)) :
    (2:ℚ) ^ (binadeExp q) ≤ |q| ∧ |q| < (2:ℚ) ^ (binadeExp q + 1) := by
  rw [binadeExp]
  split
  · next h =>
    refine expUp_spec 128 |q| 0 ?_ ?_
    · simpa using h
    · simpa using hhi
  · next h =>
    refine expDown_spec 149 |q| 0 ?_ ?_
    · have h1 : |q| < 1 := lt_of_not_le h
      calc |q| < 1 := h1
        _ ≤ (2:ℚ) ^ ((0:ℤ) + 1) := by norm_num
    · simpa using hlo

lemma binadeExp_eq (e : ℤ) {q : ℚ} (h1 : (2:ℚ) ^ e ≤ |q|) (h2 : |q| < (2:ℚ) ^ (e + 1))
    (he1 : -(149:ℤ) ≤ e) (he2 : e ≤ 127) : binadeExp q = e := by
  have hlo : (2:ℚ) ^ (-(149:ℤ)) ≤ |q| := le_trans (zpow_le_zpow_right₀ (by norm_num) he1) h1
  have hhi : |q| < (2:ℚ) ^ (128:ℤ) :=
    lt_of_lt_of_le h2 (zpow_le_zpow_right₀ (by norm_num) (by omega))
  obtain ⟨hA, hB⟩ := binadeExp_spec hlo hhi
  by_contra hne
  rcases lt_or_gt_of_ne hne with hlt | hgt
  · have hm : (2:ℚ) ^ (binadeExp q + 1) ≤ (2:ℚ) ^ e :=
      zpow_le_zpow_right₀ (by norm_num) (by omega)
    exact absurd (hB.trans_le (hm.trans h1)) (lt_irrefl _)
  · have hm : (2:ℚ) ^ (e + 1) ≤ (2:ℚ) ^ (binadeExp q) :=
      zpow_le_zpow_right₀ (by norm_num) (by omega)
    exact absurd (h2.trans_le (hm.trans hA)) (lt_irrefl _)

lemma roundHalfEven_intCast (n : ℤ) : roundHalfEven ((n : ℚ)) = n := by
  rw [roundHalfEven, Int.floor_intCast]
  norm_num

lemma roundHalfEven_floor_lt (n : ℤ) {q : ℚ} (h1 : (n:ℚ) ≤ q) (h2 : q < (n:ℚ) + 1/2) :
    roundHalfEven q = n := by
  have hf : ⌊q⌋ = n := Int.floor_eq_iff.mpr ⟨h1, by linarith⟩
  rw [roundHalfEven, hf, if_pos (by linarith)]

lemma roundHalfEven_ceil_gt (n : ℤ) {q : ℚ} (h1 : (n:ℚ) + 1/2 < q) (h2 : q < (n:ℚ) + 1) :
    roundHalfEven q = n + 1 := by
  have hf : ⌊q⌋ = n := Int.floor_eq_iff.mpr ⟨by linarith, by exact_mod_cast h2⟩
  rw [roundHalfEven, hf, if_neg (by linarith), if_pos (by linarith)]

lemma roundF32_eval (e n : ℤ) {q : ℚ} (h1 : (2:ℚ) ^ e ≤ |q|) (h2 : |q| < (2:ℚ) ^ (e + 1))
    (he1 : -(126:ℤ) ≤ e) (he2 : e ≤ 127)
    (hn : roundHalfEven (q / (2:ℚ) ^ (e - 23)) = n) :
    roundF32 q = (n : ℚ) * (2:ℚ) ^ (e - 23) := by
  have h0 : q ≠ 0 := by
    intro hq0
    rw [hq0, abs_zero] at h1
    exact absurd h1 (not_le.mpr (zpow_pos (by norm_num) e))
  rw [roundF32, if_neg h0, binadeExp_eq e h1 h2 (by omega) (by omega), max_eq_left (by omega), hn]

lemma roundF32_exact (e n : ℤ) {q : ℚ} (h1 : (2:ℚ) ^ e ≤ |q|) (h2 : |q| < (2:ℚ) ^ (e + 1))
    (he1 : -(126:ℤ) ≤ e) (he2 : e ≤ 127) (hq : q = (n : ℚ) * (2:ℚ) ^ (e - 23)) :
    roundF32 q = q := by
  have hdiv : q / (2:ℚ) ^ (e - 23) = (n : ℚ) := by
    rw [hq, mul_div_assoc, div_self (zpow_ne_zero _ (by norm_num)), mul_one]
  rw [roundF32_eval e n h1 h2 he1 he2 (by rw [hdiv]; exact roundHalfEven_intCast n), ← hq]

lemma roundF32_val_zero : roundF32 0 = 0 := by
  rw [roundF32, if_pos rfl]

lemma roundF32_val_one : roundF32 1 = 1 :=
  roundF32_exact 0 8388608 (by norm_num) (by norm_num) (by norm_num) (by norm_num) (by norm_num)

lemma roundF32_val_two : roundF32 2 = 2 :=
  roundF32_exact 1 8388608 (by norm_num) (by norm_num) (by norm_num) (by norm_num) (by norm_num)

lemma roundF32_val_90 : roundF32 90 = 90 :=
  roundF32_exact 6 11796480 (by norm_num [abs_of_nonneg]) (by norm_num [abs_of_nonneg])
    (by norm_num) (by norm_num) (by norm_num)

lemma roundF32_val_neg90 : roundF32 (-90) = -90 :=
  roundF32_exact 6 (-11796480) (by norm_num [abs_of_nonpos]) (by norm_num [abs_of_nonpos])
    (by norm_num) (by norm_num) (by norm_num)

lemma roundF32_val_180 : roundF32 180 = 180 :=
  roundF32_exact 7 11796480 (by norm_num [abs_of_nonneg]) (by norm_num [abs_of_nonneg])
    (by norm_num) (by norm_num) (by norm_num)

lemma roundF32_val_neg180 : roundF32 (-180) = -180 :=
  roundF32_exact 7 (-11796480) (by norm_num [abs_of_nonpos]) (by norm_num [abs_of_nonpos])
    (by norm_num) (by norm_num) (by norm_num)

lemma roundF32_val_big30 : roundF32 1073741824 = 1073741824 :=
  roundF32_exact 30 8388608 (by norm_num [abs_of_nonneg]) (by norm_num [abs_of_nonneg])
    (by norm_num) (by norm_num) (by norm_num)

lemma roundF32_val_step30 : roundF32 (45 / 268435456) = 45 / 268435456 :=
  roundF32_exact (-23) 11796480 (by norm_num [abs_of_nonneg]) (by norm_num [abs_of_nonneg])
    (by norm_num) (by norm_num) (by norm_num)

lemma roundF32_val_near90 : roundF32 (24159190995 / 268435456) = 90 := by
  have hn : roundHalfEven ((24159190995 / 268435456 : ℚ) / (2:ℚ) ^ ((6:ℤ) - 23)) = 11796480 := by
    rw [show ((24159190995 / 268435456 : ℚ) / (2:ℚ) ^ ((6:ℤ) - 23)) = 24159190995 / 2048 from
      by norm_num]
    exact (roundHalfEven_ceil_gt 11796479 (by norm_num) (by norm_num)).trans (by norm_num)
  rw [roundF32_eval 6 11796480 (by norm_num [abs_of_nonneg]) (by norm_num [abs_of_nonneg])
    (by norm_num) (by norm_num) hn]
  norm_num

/-- Claim C2: false on the source.  With startZoom 0, endZoom 1,
startX 1, startY 0 the program's enumeration differs from the
enumeration in which offsets apply only at the very start: the code
re-applies startX at zoom 1 (yielding only column x = 1), while the
claim's reading yields columns x = 0 and x = 1 there. -/
theorem offsets_once_counterexample :
    enumerate 0 1 1 0 ≠ enumerateOffsetsOnce 0 1 1 0 := by
  decide

/-- Claim C2 (amended): the startX and startY offsets are re-applied at
every zoom level — an address (z, x, y) is enumerated exactly when z is
in the zoom range and, at that zoom, startX ≤ x < n and startY ≤ y < n
with n the tile count of zoom z. -/
theorem offsets_reapplied_every_zoom (z1 z2 sx sy z x y : ℕ) :
    (z, x, y) ∈ enumerate z1 z2 sx sy ↔
      (z1 ≤ z ∧ z ≤ z2) ∧ (sx ≤ x ∧ x < nTiles z) ∧ (sy ≤ y ∧ y < nTiles z) :=
  mem_enumerate

/-- Claim C4: when the starting x offset or the starting y offset is at
least the tile count of a zoom level, that zoom level contributes no
addresses (a plain empty list, not an error: the generator is total). -/
theorem offset_overflow_zoom_empty (z sx sy : ℕ)
    (h : nTiles z ≤ sx ∨ nTiles z ≤ sy) : perZoom z sx sy = [] := by
  rcases h with h | h
  · unfold perZoom
    rw [Nat.sub_eq_zero_of_le h, List.range'_zero]
    rfl
  · unfold perZoom
    rw [List.flatMap_eq_nil_iff]
    intro x _
    unfold yAddrs
    rw [Nat.sub_eq_zero_of_le h, List.range'_zero]
    rfl

/-- Witness for C4 at zoom 1 with startX 2: the hypothesis holds and the
zoom level is empty. -/
theorem offset_overflow_zoom_empty_witness : nTiles 1 ≤ 2 ∧ perZoom 1 2 0 = [] :=
  ⟨by decide, offset_overflow_zoom_empty 1 2 0 (Or.inl (by decide))⟩

/-- Claim C5: false on the source.  The source computes the bounding box
in f32, and rounding breaks the claimed exact formulas: at zoom 30,
tile (x=0, y=1), the north edge is computed as the f32 value of
90 - 1·(180/2^30), whose offset 45/2^28 is below half an ulp of 90, so
the substituted north is exactly 90 — while the claimed formula
90 - y·180/n is strictly less than 90. -/
theorem bounds_exact_formula_counterexample :
    (boundsTuple 30 0 1).1 ≠ 90 - (1 : ℚ) * 180 / ((nTiles 30 : ℚ)) := by
  have hlat : tileLat 30 1 = 90 := by
    rw [tileLat, latStep]
    norm_num [nTiles, roundF32_val_big30, roundF32_val_one, roundF32_val_step30,
      roundF32_val_near90]
  show tileLat 30 1 ≠ _
  rw [hlat]
  norm_num [nTiles]

/-- Claim C5 (amended): the bounding box substituted for the bounds
placeholder is the claimed 4-tuple (north, south, west, east) =
(90 - y·180/n, 90 - (y+1)·180/n, x·360/n - 180, (x+1)·360/n - 180)
evaluated in f32 round-to-nearest-even arithmetic, operation by
operation as the source writes it, rather than in exact arithmetic; at
zoom 1, where every intermediate value is exactly representable, tile
(0,0) yields exactly (90, 0, -180, 0) and tile (1,1) yields exactly
(0, -90, 0, 180). -/
theorem bounds_f32_tuple_concrete :
    boundsTuple 1 0 0 = (90, 0, -180, 0) ∧ boundsTuple 1 1 1 = (0, -90, 0, 180) := by
  constructor <;>
  · norm_num [boundsTuple, tileLat, tileLon, latStep, lonStep, nTiles, roundF32_val_zero,
      roundF32_val_one, roundF32_val_two, roundF32_val_90, roundF32_val_neg90,
      roundF32_val_180, roundF32_val_neg180, Prod.mk.injEq]

/-- Claim C6: the destination file path is always
outputDir/zoom/x/y.png (decimal renderings), it depends on the
arguments only through the output directory (in particular not on the
URL template), and the concrete address (3, 5, 2) under output
directory "out" maps to "out/3/5/2.png". -/
theorem dest_path_format (a b : Args) (z x y : ℕ)
    (h : a.output_dir = b.output_dir) :
    pathFor a z x y = pathFor b z x y ∧
    pathFor a z x y =
      a.output_dir ++ "/" ++ toString z ++ "/" ++ toString x ++ "/"
        ++ toString y ++ ".png" ∧
    pathFor { a with output_dir := "out" } 3 5 2 = "out/3/5/2.png" := by
  refine ⟨?_, rfl, rfl⟩
  simp [pathFor, directoryFor, h]

/-- Witness for C6: two argument records sharing the output directory
"out" but with different URL templates give the same path for tile
(3, 5, 2), namely "out/3/5/2.png". -/
theorem dest_path_format_witness :
    pathFor sampleArgs 3 5 2 =
      pathFor { sampleArgs with url := "http://other/{bounds}" } 3 5 2 ∧
    pathFor sampleArgs 3 5 2 = "out/3/5/2.png" := by
  have h := dest_path_format sampleArgs
    { sampleArgs with url := "http://other/{bounds}" } 3 5 2 rfl
  exact ⟨h.1, by decide⟩

/-- Claim C7: `run_request` reports success exactly when the client
build, the GET, the file creation and the body copy all succeed and the
number of bytes copied is positive; in particular a copy of zero bytes
is reported as failure even though every HTTP-level step succeeded. -/
theorem run_request_success_iff :
    (∀ o : FetchOutcome, run_request o = some true ↔
      o.buildOk = true ∧ o.sendOk = true ∧ o.createOk = true ∧
        ∃ l, o.copyResult = some l ∧ 0 < l) ∧
    (∀ o : FetchOutcome, o.copyResult = some 0 → run_request o = none) := by
  constructor
  · rintro ⟨b, s, c, r⟩
    cases b <;> cases s <;> cases c <;> rcases r with _ | l <;>
      (simp [run_request]; try omega)
  · rintro ⟨b, s, c, r⟩ h
    simp only at h
    subst h
    cases b <;> cases s <;> cases c <;> simp [run_request]

/-- Witness for C7: a five-byte copy with all steps succeeding is a
success; a zero-byte copy with all steps succeeding is a failure. -/
theorem run_request_success_iff_witness :
    run_request ⟨true, true, true, some 5⟩ = some true ∧
    run_request ⟨true, true, true, some 0⟩ = none :=
  ⟨(run_request_success_iff.1 _).mpr ⟨rfl, rfl, rfl, 5, rfl, by norm_num⟩,
    run_request_success_iff.2 _ rfl⟩

/-- Claim C9: the parsed invert-y-axis flag is dead — flipping it
changes neither the rendered URL, nor the destination path, nor the
enumeration (hence its order). -/
theorem invert_y_axis_no_effect (a : Args) (v : Bool) (z x y : ℕ) :
    urlFor { a with invert_y_axis := v } z x y = urlFor a z x y ∧
    pathFor { a with invert_y_axis := v } z x y = pathFor a z x y ∧
    enumerateArgs { a with invert_y_axis := v } = enumerateArgs a :=
  ⟨rfl, rfl, rfl⟩

/-- Claim C10: the per-zoom tile count is computed in u32 arithmetic, so
every zoom of at least 32 overflows (the true count 2^z reaches the
32-bit bound, and the wrapped count is 0), while every zoom up to 31 is
exact. -/
theorem nTiles_u32_overflow :
    (∀ z : ℕ, 32 ≤ z → 2 ^ 32 ≤ 2 ^ z ∧ nTiles z = 0) ∧
    (∀ z : ℕ, z ≤ 31 → nTiles z = 2 ^ z) := by
  constructor
  · intro z h
    refine ⟨Nat.pow_le_pow_right (by norm_num) h, ?_⟩
    unfold nTiles
    have hz : z = 32 + (z - 32) := by omega
    rw [hz, pow_add]
    exact Nat.mul_mod_right _ _
  · intro z h
    exact nTiles_of_le_31 h

/-- Witness for C10: zoom 32 wraps to 0 tiles per axis, zoom 31 is still
exact. -/
theorem nTiles_u32_overflow_witness : nTiles 32 = 0 ∧ nTiles 31 = 2 ^ 31 :=
  ⟨(nTiles_u32_overflow.1 32 le_rfl).2, nTiles_u32_overflow.2 31 (by norm_num)⟩

/-- Claim C3: with zero offsets and every zoom within the u32-exact
range, the enumeration has exactly the sum of 4^z addresses over the
zoom range, every enumerated triple occurs exactly once, and the
sequence is strictly ascending in (zoom, x, y) lexicographic order. -/
theorem enumeration_complete_unique_sorted (z1 z2 : ℕ) (h1 : z1 ≤ z2)
    (h2 : z2 ≤ 31) :
    (enumerate z1 z2 0 0).length = ∑ z ∈ Finset.Icc z1 z2, 4 ^ z ∧
    (∀ t ∈ enumerate z1 z2 0 0, (enumerate z1 z2 0 0).count t = 1) ∧
    (enumerate z1 z2 0 0).Pairwise lexLt := by
  refine ⟨?_, ?_, pairwise_enumerate z1 z2 0 0⟩
  · rw [length_enumerate, sum_Icc_eq_list_sum]
    show (List.map _ (List.range' z1 (z2 + 1 - z1))).sum = _
    congr 1
    apply List.map_congr_left
    intro z hz
    rw [List.mem_range'_1] at hz
    have hz31 : z ≤ 31 := by omega
    rw [nTiles_of_le_31 hz31, Nat.sub_zero]
    have h4 : (4 : ℕ) = 2 ^ 2 := by norm_num
    rw [h4, ← pow_mul, two_mul, pow_add]
  · intro t ht
    exact List.count_eq_one_of_mem (nodup_enumerate z1 z2 0 0) ht

/-- Witness for C3 at zooms 0 through 2: 1 + 4 + 16 = 21 addresses,
each counted once, in strictly ascending order. -/
theorem enumeration_complete_unique_sorted_witness :
    (enumerate 0 2 0 0).length = ∑ z ∈ Finset.Icc 0 2, 4 ^ z ∧
    (∀ t ∈ enumerate 0 2 0 0, (enumerate 0 2 0 0).count t = 1) ∧
    (enumerate 0 2 0 0).Pairwise lexLt :=
  enumeration_complete_unique_sorted 0 2 (by norm_num) (by norm_num)

/-- Claim C8: a directory-creation failure anywhere in the run aborts
the whole process, while fetch failures never do — whenever every
needed directory can be ensured, the run completes normally and every
enumerated tile is attempted, whatever the fetch outcomes are; and if
some needed directory can neither be found nor created, the run ends in
the fatal error. -/
theorem dir_failure_fatal_fetch_isolated (a : Args) (w : World) :
    ((∀ p ∈ dirPairs a.start_zoom a.end_zoom a.x,
        w.isDir p.1 p.2 = true ∨ w.createOk p.1 p.2 = true) →
      mainRun a w = Except.ok ((enumerateArgs a).map
        fun t => (t, w.fetchOk t.1 t.2.1 t.2.2))) ∧
    ((∃ p ∈ dirPairs a.start_zoom a.end_zoom a.x,
        w.isDir p.1 p.2 = false ∧ w.createOk p.1 p.2 = false) →
      ∃ q, mainRun a w = Except.error q) := by
  constructor
  · intro h
    unfold mainRun
    rw [runPairs_ok a w _ h]
    congr 1
    rw [enumerateArgs, enumerate_eq_dirPairs_flatMap]
  · intro h
    exact runPairs_error a w _ h

/-- Witness for C8: with the all-succeeding world, the sample run
(zooms 0..1, offsets 0) completes with all five tiles attempted. -/
theorem dir_failure_fatal_fetch_isolated_witness :
    mainRun sampleArgs happyWorld = Except.ok
      ((enumerateArgs sampleArgs).map
        fun t => (t, happyWorld.fetchOk t.1 t.2.1 t.2.2)) :=
  (dir_failure_fatal_fetch_isolated sampleArgs happyWorld).1 (by decide)

/-- What the dispatch loop actually enforces: along every schedule, the
`handles` vector — and so the number of executing fetches — never
exceeds the concurrency argument plus one, because a spawn is admitted
as soon as the vector length is not strictly greater than the limit. -/
lemma loop_handles_le_succ (L T : ℕ) (s : LoopState)
    (h : ReachableLoop L ⟨T, 0, 0⟩ s) :
    s.running + s.finishedInList ≤ L + 1 := by
  induction h with
  | refl => simp
  | step hr hstep ih =>
    cases hstep <;> (dsimp only; omega)

/-- Claim C1: false on the source.  With the concurrency argument set
to 1 and two queued addresses, the dispatch loop reaches a state with
two fetch threads executing simultaneously: the wait-loop guard is
`handles.len() > concurrent_threads`, so a new thread is spawned while
the limit is already saturated.  The cap actually enforced is
`concurrent_threads + 1` (see `loop_handles_le_succ`). -/
theorem concurrency_cap_exceeded :
    ReachableLoop 1 ⟨2, 0, 0⟩ ⟨0, 2, 0⟩ ∧ 1 < (⟨0, 2, 0⟩ : LoopState).running := by
  constructor
  · have h1 : LoopStep 1 ⟨2, 0, 0⟩ ⟨1, 1, 0⟩ :=
      LoopStep.spawn ⟨2, 0, 0⟩ (by decide) (by decide)
    have h2 : LoopStep 1 ⟨1, 1, 0⟩ ⟨0, 2, 0⟩ :=
      LoopStep.spawn ⟨1, 1, 0⟩ (by decide) (by decide)
    exact ReachableLoop.step (ReachableLoop.step ReachableLoop.refl h1) h2
  · decide
